import Mathlib

/-! Streaming.h: fixed-point rendering

Shallow embedding of the three decimal renderers of `src/Streaming.h`
(`_FIXED`, `_DYNAMIC`, `_LEADING0` and their `operator <<`).

Conventions of the embedding

* `long`, `int32_t` are 32-bit two's-complement integers, modelled as `Int`
  with `wrap32` at every operation that can leave the range; `unsigned long`
  is a `Nat` below `2^32`; `uint8_t` is a `Nat` reduced modulo `256`;
  `size_t` is a `Nat`; `int` is an `Int`.
* The character buffer `buf[12]` of the `_FIXED` renderer is filled backwards
  through `*--str = c`.  The embedding keeps the list of characters from
  `*str` up to (not including) the terminator, so `*--str = c` is `c :: str`
  and the pointer `str` is at index `11 - str.length` of `buf`.
* The sink (`Print`) is the list of characters written so far; a renderer
  returns the characters it writes, `none` when its execution leaves the
  buffer or does not terminate.
* The struct and operator names lose their leading underscore
  (`_FIXED` is `FIXED`), `operator <<` is `operatorShl`.
-/

namespace Streaming

/-! ## Machine integers -/

/-- Two's-complement reduction of an integer to the 32-bit signed range
(`long`, `int32_t`). -/
def wrap32 (x : Int) : Int := (x + 2147483648) % 4294967296 - 2147483648

/-- Conversion of a `long` to `unsigned long` (32 bits). -/
def toULong (x : Int) : Nat := (x % 4294967296).toNat

/-- Increment of a `uint8_t`. -/
def incU8 (s : Nat) : Nat := (s + 1) % 256

/-- Membership in the range of a 32-bit signed integer. -/
def isLong (x : Int) : Prop := -2147483648 ≤ x ∧ x ≤ 2147483647

instance (x : Int) : Decidable (isLong x) := by unfold isLong; infer_instance

/-- Modelled from the spec: the macro `abs` of `Arduino.h` (not in the
sources), `((x)>0?(x):-(x))`, on a `long`; the negation is reduced to 32 bits. -/
def abs (x : Int) : Int := if x > 0 then x else wrap32 (-x)

/-! ## The sink -/

/-- Modelled from the spec: `Print::print(long)` of the output sink (not in the
sources), the plain decimal representation of the integer: a `-` for a
negative value, then the decimal digits of the magnitude. -/
def print (v : Int) : List Char :=
  if v < 0 then '-' :: Nat.toDigits 10 v.natAbs else Nat.toDigits 10 v.natAbs

/-! ## `_FIXED` -/

/-- The struct `_FIXED` (lines 105-111). -/
structure FIXED where
  val : Int
  digits : Int
deriving DecidableEq, Repr

/-- The digit loop `do { ... } while(n);` of the `_FIXED` renderer
(lines 132-139) on the state `(n, i, str)`.  The first argument bounds the
number of iterations. -/
def FIXED.doLoop : Nat → Nat → Int → List Char → Int × List Char
  | 0, _, i, str => (i, str)
  | fuel + 1, n, i, str =>
    let m := n
    let n := n / 10
    let c := m - 10 * n
    let str := Char.ofNat (c + 48) :: str
    let i := i - 1
    let str := if i = 0 then '.' :: str else str
    if n ≠ 0 then FIXED.doLoop fuel n i str else (i, str)

/-- The zero-fill loop `while(i>=0) { ... }` of the `_FIXED` renderer
(lines 140-149).  The first argument bounds the number of iterations. -/
def FIXED.fillLoop : Nat → Int → List Char → List Char
  | 0, _, str => str
  | fuel + 1, i, str =>
    if i ≥ 0 then
      let str := if i = 0 then '0' :: '.' :: str else '0' :: str
      FIXED.fillLoop fuel (i - 1) str
    else str

/-- The characters the `else` branch of the `_FIXED` renderer has put in the
buffer when it reaches `obj.print(str)` (lines 120-150), in reading order.
The digit loop divides `n` by ten until it is zero, so `n + 1` iterations
are enough; the fill loop counts `i` down to `-1`. -/
def FIXED.assemble (arg : FIXED) : List Char :=
  let n : Nat := if arg.val < 0 then toULong (wrap32 (-arg.val)) else toULong arg.val
  let r := FIXED.doLoop (n + 1) n arg.digits []
  let str := FIXED.fillLoop (r.1 + 1).toNat r.1 r.2
  if arg.val < 0 then '-' :: str else str

/-- The text of the `_FIXED` renderer when the buffer is taken as unbounded. -/
def FIXED.text (arg : FIXED) : List Char :=
  if arg.digits ≤ 0 then print arg.val else FIXED.assemble arg

/-- The renderer `operator <<(Print&, const _FIXED&)` (lines 113-154): the
characters written to the sink.  The buffer has 12 bytes, the last one holds
the terminator, so at most 11 characters can be put before it; a longer
string is written before the start of the buffer and there is no result. -/
def FIXED.operatorShl (arg : FIXED) : Option (List Char) :=
  if arg.digits ≤ 0 then some (print arg.val)
  else if (FIXED.assemble arg).length + 1 ≤ 12 then some (FIXED.assemble arg)
  else none

/-! ## `_DYNAMIC` -/

/-- The struct `_DYNAMIC` (lines 164-167). -/
structure DYNAMIC where
  val : Int
  digits : Int
deriving DecidableEq, Repr

/-- The loop `while(s>0){ b *= 10; s--; }` of the `_DYNAMIC` constructor
(lines 184-187), returning `b`. -/
def DYNAMIC.powLoop : Nat → Int → Int
  | 0, b => b
  | s + 1, b => DYNAMIC.powLoop s (wrap32 (b * 10))

/-- The loop `while(digits>0 && abs(val)>=b){ ... }` of the `_DYNAMIC`
constructor (lines 189-192) on the state `(val, digits)`.  The first argument
bounds the number of iterations. -/
def DYNAMIC.roundLoop : Nat → Int → Int → Int → Int × Int
  | 0, _, val, digits => (val, digits)
  | fuel + 1, b, val, digits =>
    if digits > 0 ∧ abs val ≥ b then
      DYNAMIC.roundLoop fuel b (Int.tdiv (wrap32 (val + 5)) 10) (digits - 1)
    else (val, digits)

/-- The constructor `_DYNAMIC(long v, int d, size_t s)` (lines 168-193).
The rounding loop decrements `digits` at every iteration and stops at zero,
so `digits` iterations are enough. -/
def DYNAMIC.ctor (v : Int) (d : Int) (s : Nat) : DYNAMIC :=
  let b : Int := 1
  let val := v
  let digits := if d < 0 then 0 else d
  if s ≤ 0 then ⟨val, digits⟩
  else
    let s := if v < 0 then s - 1 else s
    let b := DYNAMIC.powLoop s b
    let r := DYNAMIC.roundLoop digits.toNat b val digits
    ⟨r.1, r.2⟩

/-- The renderer `operator <<(Print&, const _DYNAMIC&)` (lines 196-206). -/
def DYNAMIC.operatorShl (arg : DYNAMIC) : Option (List Char) :=
  if arg.digits ≤ 0 then some (print arg.val)
  else FIXED.operatorShl ⟨arg.val, arg.digits⟩

/-! ## `_LEADING0` -/

/-- The struct `_LEADING0` (lines 216-220). -/
structure LEADING0 where
  val : Int
  digits : Int
  size : Nat
deriving DecidableEq, Repr

/-- The constructor `_LEADING0(long v, int d, size_t s)` (lines 221-226). -/
def LEADING0.ctor (v : Int) (d : Int) (s : Nat) : LEADING0 :=
  if d < 0 ∨ d ≥ s then ⟨v, 0, s⟩ else ⟨v, d, s⟩

/-- The loop `while(s<arg.digits){ b *= 10; s++; }` of the `_LEADING0`
renderer (lines 235-238) on the state `(s, b)`; `none` when the iteration
bound is used up. -/
def LEADING0.scaleLoop (digits : Int) : Nat → Nat → Int → Option (Nat × Int)
  | 0, _, _ => none
  | fuel + 1, s, b =>
    if (s : Int) < digits then LEADING0.scaleLoop digits fuel (incU8 s) (wrap32 (b * 10))
    else some (s, b)

/-- The loop `while(s<arg.size){ ... }` of the `_LEADING0` renderer
(lines 246-252) on the state `(s, b, obj)`, returning the sink; `none` when
the iteration bound is used up. -/
def LEADING0.padLoop (size : Nat) (v : Int) : Nat → Nat → Int → List Char → Option (List Char)
  | 0, _, _, _ => none
  | fuel + 1, s, b, obj =>
    if s < size then
      let obj := if v < b then obj ++ ['0'] else obj
      LEADING0.padLoop size v fuel (incU8 s) (wrap32 (b * 10)) obj
    else some obj

/-- The renderer `operator <<(Print&, const _LEADING0&)` (lines 229-260).
The counter `s` is a `uint8_t`: a loop that has not met its exit test within
256 iterations has seen every value of `s` and never meets it. -/
def LEADING0.operatorShl (arg : LEADING0) : Option (List Char) :=
  match LEADING0.scaleLoop arg.digits 257 0 1 with
  | none => none
  | some (s, b) =>
    let v := arg.val
    let st : Int × Nat × List Char := if v < 0 then (wrap32 (-v), incU8 s, ['-']) else (v, s, [])
    let v := st.1
    let s := st.2.1
    let obj := st.2.2
    let sb : Nat × Int := if v < b then (incU8 s, wrap32 (b * 10)) else (s, b)
    match LEADING0.padLoop arg.size v 257 sb.1 sb.2 obj with
    | none => none
    | some obj =>
      if arg.digits ≤ 0 then some (obj ++ print v)
      else
        match FIXED.operatorShl ⟨v, arg.digits⟩ with
        | none => none
        | some body => some (obj ++ body)

/-! ## Reference notions used by the statements -/

/-- The number of characters of a text other than the decimal point (its sign
and digit characters). -/
def nonPoint (t : List Char) : Nat := (t.filter (fun c => c != '.')).length

/-- The number of decimal digits of a natural number, `0` for `0`. -/
def decLen (n : Nat) : Nat := (Nat.digits 10 n).length

/-- Reference text of `value / 10^digits` in the words of the spec: an
optional `-`, the decimal digits of `|value| div 10^digits`, one `.`, then
`|value| mod 10^digits` written with exactly `digits` digit characters,
zero-padded on the left. -/
def fixedPointText (value : Int) (digits : Nat) : List Char :=
  let n := value.natAbs
  let frac := Nat.toDigits 10 (n % 10 ^ digits)
  (if value < 0 then ['-'] else []) ++ Nat.toDigits 10 (n / 10 ^ digits)
    ++ '.' :: (List.replicate (digits - frac.length) '0' ++ frac)

/-- The decimal digit count of a natural number, with `nd 0 = 1`: the length of
its decimal representation. -/
def nd (n : Nat) : Nat := (Nat.toDigits 10 n).length

/-- The `k` low-order decimal digits of `n`, most significant first. -/
def lowDigits : Nat → Nat → List Char
  | 0, _ => []
  | k + 1, n => lowDigits k (n / 10) ++ [Nat.digitChar (n % 10)]

/-- The assignment `val =(val+5)/10;` of the rounding loop of the `_DYNAMIC`
constructor (line 190): the sum is reduced to 32 bits, the division truncates. -/
def DYNAMIC.step (val : Int) : Int := Int.tdiv (wrap32 (val + 5)) 10

/-- The rounding step in the words of the spec, `(x + 5) / 10` with truncating
integer division, on the integers. -/
def roundStep (x : Int) : Int := Int.tdiv (x + 5) 10

/-- Round-half-up of `x / 10^k` in the words of the spec, `floor(x / 10^k + 1/2)`,
written with the floor division of the integers as
`floor((2 * x + 10^k) / (2 * 10^k))`. -/
def roundHalfUp (x : Int) (k : Nat) : Int := (2 * x + 10 ^ k) / (2 * 10 ^ k)

/-! ## Worked examples -/

/-- C1: the `_FIXED` renderer does not write the decimal text of
`value / 10^digits` when the magnitude has exactly `digits` decimal digits:
for `_FIXED(12, 2)` the rendering fits the buffer and is `0..12`, with two
decimal points, while the decimal text of `12 / 10^2` is `0.12`. -/
theorem FIXED_exact_width_two_points :
    FIXED.operatorShl ⟨12, 2⟩ = some "0..12".toList
      ∧ fixedPointText 12 2 = "0.12".toList
      ∧ FIXED.operatorShl ⟨12, 2⟩ ≠ some (fixedPointText 12 2)
      ∧ List.count '.' "0..12".toList = 2 := by
  decide

/-- C2: `_DYNAMIC(12345, 2, 4)` is reduced by its constructor to
`(val, digits) = (1235, 1)` and is rendered as `123.5`. -/
theorem DYNAMIC_worked_example :
    DYNAMIC.ctor 12345 2 4 = ⟨1235, 1⟩
      ∧ DYNAMIC.operatorShl (DYNAMIC.ctor 12345 2 4) = some "123.5".toList
      ∧ DYNAMIC.operatorShl (DYNAMIC.ctor 12345 2 4) = FIXED.operatorShl ⟨1235, 1⟩ := by
  decide

/-- C3: `_LEADING0(1234, 2, 5)` is rendered as `012.34`: one padding zero,
then the `_FIXED` rendering `12.34` of `(1234, 2)`. -/
theorem LEADING0_worked_example :
    LEADING0.operatorShl (LEADING0.ctor 1234 2 5) = some "012.34".toList
      ∧ FIXED.operatorShl ⟨1234, 2⟩ = some "12.34".toList
      ∧ "012.34".toList = '0' :: "12.34".toList := by
  decide

/-- C4: the `_FIXED` renderer writes `12.34` for `(1234, 2)`, `-12.34` for
`(-1234, 2)`, `0.005` for `(5, 3)` and `0` for `(0, 0)`. -/
theorem FIXED_worked_examples :
    FIXED.operatorShl ⟨1234, 2⟩ = some "12.34".toList
      ∧ FIXED.operatorShl ⟨-1234, 2⟩ = some "-12.34".toList
      ∧ FIXED.operatorShl ⟨5, 3⟩ = some "0.005".toList
      ∧ FIXED.operatorShl ⟨0, 0⟩ = some "0".toList := by
  decide

/-! ## Characters written by the loops -/

theorem ofNat_digit_ne (d : Nat) (h : d < 10) :
    Char.ofNat (d + 48) ≠ '-' ∧ Char.ofNat (d + 48) ≠ '.' := by
  interval_cases d <;> decide

theorem digitChar_ne (d : Nat) (h : d < 10) :
    Nat.digitChar d ≠ '-' ∧ Nat.digitChar d ≠ '.' := by
  interval_cases d <;> decide

theorem mem_toDigitsCore (fuel : Nat) : ∀ (n : Nat) (acc : List Char) (c : Char),
    c ∈ Nat.toDigitsCore 10 fuel n acc → c ∈ acc ∨ (c ≠ '-' ∧ c ≠ '.') := by
  induction fuel with
  | zero => intro n acc c h; left; simpa [Nat.toDigitsCore] using h
  | succ fuel ih =>
    intro n acc c h
    have hd := digitChar_ne (n % 10) (Nat.mod_lt _ (by norm_num))
    rw [Nat.toDigitsCore] at h
    by_cases h0 : n / 10 = 0
    · simp only [h0, if_true] at h
      rcases List.mem_cons.mp h with rfl | h
      · right; exact hd
      · left; exact h
    · simp only [h0, if_false] at h
      rcases ih _ _ _ h with h | h
      · rcases List.mem_cons.mp h with rfl | h
        · right; exact hd
        · left; exact h
      · right; exact h

theorem mem_toDigits (n : Nat) (c : Char) (h : c ∈ Nat.toDigits 10 n) : c ≠ '-' ∧ c ≠ '.' := by
  rcases mem_toDigitsCore _ _ _ _ h with h | h
  · simp at h
  · exact h

theorem print_eq_toString (v : Int) : String.mk (print v) = toString v := by
  cases v with
  | ofNat m =>
    have : ¬ ((m : Int) < 0) := by omega
    simp [print, toString, Nat.repr, List.asString, this]
  | negSucc m =>
    have : (Int.negSucc m) < 0 := Int.negSucc_lt_zero m
    simp [print, toString, Nat.repr, List.asString, this]
    rfl

theorem mem_doLoop (fuel : Nat) : ∀ (n : Nat) (i : Int) (str : List Char) (c : Char),
    c ∈ (FIXED.doLoop fuel n i str).2 → c ∈ str ∨ c ≠ '-' := by
  induction fuel with
  | zero => intro n i str c h; left; simpa [FIXED.doLoop] using h
  | succ fuel ih =>
    intro n i str c h
    have hd := (ofNat_digit_ne (n - 10 * (n / 10)) (by omega)).1
    have key : ∀ x, x ∈ (if i - 1 = 0 then '.' :: Char.ofNat (n - 10 * (n / 10) + 48) :: str
        else Char.ofNat (n - 10 * (n / 10) + 48) :: str) → x ∈ str ∨ x ≠ '-' := by
      intro x hx
      split at hx
      · rcases List.mem_cons.mp hx with rfl | hx
        · right; decide
        · rcases List.mem_cons.mp hx with rfl | hx
          · right; exact hd
          · left; exact hx
      · rcases List.mem_cons.mp hx with rfl | hx
        · right; exact hd
        · left; exact hx
    simp only [FIXED.doLoop] at h
    split at h
    · rcases ih _ _ _ _ h with h | h
      · exact key _ h
      · right; exact h
    · exact key _ h

theorem mem_fillLoop (fuel : Nat) : ∀ (i : Int) (str : List Char) (c : Char),
    c ∈ FIXED.fillLoop fuel i str → c ∈ str ∨ c ≠ '-' := by
  induction fuel with
  | zero => intro i str c h; left; simpa [FIXED.fillLoop] using h
  | succ fuel ih =>
    intro i str c h
    simp only [FIXED.fillLoop] at h
    split at h
    · rcases ih _ _ _ h with h | h
      · split at h
        · rcases List.mem_cons.mp h with rfl | h
          · right; decide
          · rcases List.mem_cons.mp h with rfl | h
            · right; decide
            · left; exact h
        · rcases List.mem_cons.mp h with rfl | h
          · right; decide
          · left; exact h
      · right; exact h
    · left; exact h

theorem operatorShl_eq_text (arg : FIXED) (t : List Char)
    (h : FIXED.operatorShl arg = some t) : t = FIXED.text arg := by
  unfold FIXED.operatorShl at h
  unfold FIXED.text
  split at h
  · simp only [Option.some.injEq] at h
    simp [*]
  · split at h
    · simp only [Option.some.injEq] at h
      simp [*]
    · simp at h

theorem text_sign (val digits : Int) :
    ((FIXED.text ⟨val, digits⟩).head? = some '-' ↔ val < 0)
      ∧ '-' ∉ (FIXED.text ⟨val, digits⟩).tail := by
  have hhead : ∀ l : List Char, (∀ c ∈ l, c ≠ '-') → ¬ (l.head? = some '-') := by
    intro l hl h
    cases l with
    | nil => simp at h
    | cons a l =>
      simp only [List.head?_cons, Option.some.injEq] at h
      exact hl a (List.mem_cons_self _ _) h
  have htail : ∀ l : List Char, (∀ c ∈ l, c ≠ '-') → '-' ∉ l.tail := by
    intro l hl h
    exact hl _ (List.mem_of_mem_tail h) rfl
  have hasm : ∀ n : Nat, ∀ c ∈ FIXED.fillLoop ((FIXED.doLoop (n + 1) n digits []).1 + 1).toNat
      (FIXED.doLoop (n + 1) n digits []).1 (FIXED.doLoop (n + 1) n digits []).2, c ≠ '-' := by
    intro n c hc
    rcases mem_fillLoop _ _ _ _ hc with h | h
    · rcases mem_doLoop _ _ _ _ _ h with h | h
      · simp at h
      · exact h
    · exact h
  have hpr : ∀ n : Nat, ∀ c ∈ Nat.toDigits 10 n, c ≠ '-' := fun n c hc => (mem_toDigits n c hc).1
  unfold FIXED.text FIXED.assemble print
  by_cases hd : digits ≤ 0 <;> by_cases hv : val < 0 <;> simp only [hd, hv, if_true, if_false]
  · exact ⟨by simp, fun h => hpr _ _ h rfl⟩
  · exact ⟨by simpa using hhead _ (hpr _), htail _ (hpr _)⟩
  · exact ⟨by simp, fun h => hasm _ _ h rfl⟩
  · exact ⟨by simpa using hhead _ (hasm _), htail _ (hasm _)⟩

/-! ## The iteration bounds are enough -/

theorem doLoop_fuel (f1 : Nat) : ∀ (f2 n : Nat) (i : Int) (str : List Char),
    n < f1 → n < f2 → FIXED.doLoop f1 n i str = FIXED.doLoop f2 n i str := by
  induction f1 with
  | zero => intro f2 n i str h; omega
  | succ f1 ih =>
    intro f2 n i str h1 h2
    cases f2 with
    | zero => omega
    | succ f2 =>
      simp only [FIXED.doLoop]
      split
      · exact ih f2 _ _ _ (by omega) (by omega)
      · rfl

theorem fillLoop_fuel (f1 : Nat) : ∀ (f2 : Nat) (i : Int) (str : List Char),
    (i + 1).toNat ≤ f1 → (i + 1).toNat ≤ f2 →
      FIXED.fillLoop f1 i str = FIXED.fillLoop f2 i str := by
  induction f1 with
  | zero =>
    intro f2 i str h1 h2
    cases f2 with
    | zero => rfl
    | succ f2 =>
      have : ¬ (i ≥ 0) := by omega
      simp [FIXED.fillLoop, this]
  | succ f1 ih =>
    intro f2 i str h1 h2
    cases f2 with
    | zero =>
      have : ¬ (i ≥ 0) := by omega
      simp [FIXED.fillLoop, this]
    | succ f2 =>
      simp only [FIXED.fillLoop]
      split
      · exact ih f2 _ _ (by omega) (by omega)
      · rfl

theorem roundLoop_fuel (b : Int) (f1 : Nat) : ∀ (f2 : Nat) (val digits : Int),
    digits.toNat ≤ f1 → digits.toNat ≤ f2 →
      DYNAMIC.roundLoop f1 b val digits = DYNAMIC.roundLoop f2 b val digits := by
  induction f1 with
  | zero =>
    intro f2 val digits h1 h2
    cases f2 with
    | zero => rfl
    | succ f2 =>
      have : ¬ (digits > 0) := by omega
      simp [DYNAMIC.roundLoop, this]
  | succ f1 ih =>
    intro f2 val digits h1 h2
    cases f2 with
    | zero =>
      have : ¬ (digits > 0) := by omega
      simp [DYNAMIC.roundLoop, this]
    | succ f2 =>
      simp only [DYNAMIC.roundLoop]
      split
      · exact ih f2 _ _ (by omega) (by omega)
      · rfl

/-! ## Decimal length -/

theorem decLen_zero : decLen 0 = 0 := by simp [decLen]

theorem decLen_step (n : Nat) (h : 0 < n) : decLen n = decLen (n / 10) + 1 := by
  unfold decLen
  rw [Nat.digits_def' (by norm_num) h]
  simp

theorem lt_pow_iff_decLen (k : Nat) : ∀ n : Nat, n < 10 ^ k ↔ decLen n ≤ k := by
  induction k with
  | zero =>
    intro n
    rcases Nat.eq_zero_or_pos n with rfl | h
    · simp [decLen_zero]
    · rw [decLen_step n h]; simp; omega
  | succ k ih =>
    intro n
    rcases Nat.eq_zero_or_pos n with rfl | h
    · simp [decLen_zero]
    · rw [decLen_step n h, pow_succ, ← Nat.div_lt_iff_lt_mul (by norm_num), ih]
      omega

theorem decLen_small (n : Nat) (h : n / 10 = 0) : max 1 (decLen n) = 1 := by
  rcases Nat.eq_zero_or_pos n with rfl | hn
  · simp [decLen_zero]
  · rw [decLen_step n hn, h, decLen_zero]; simp

theorem decLen_big (n : Nat) (h : n / 10 ≠ 0) :
    max 1 (decLen n) = max 1 (decLen (n / 10)) + 1 := by
  have hn : 0 < n := by
    rcases Nat.eq_zero_or_pos n with rfl | hn
    · simp at h
    · exact hn
  rw [decLen_step n hn, decLen_step (n / 10) (Nat.pos_of_ne_zero h)]
  omega

/-! ## Counting the characters other than the decimal point -/

theorem nonPoint_point (t : List Char) : nonPoint ('.' :: t) = nonPoint t := by
  simp [nonPoint]

theorem nonPoint_cons (c : Char) (t : List Char) (h : c ≠ '.') :
    nonPoint (c :: t) = nonPoint t + 1 := by
  simp [nonPoint, h]

theorem nonPoint_append (t u : List Char) : nonPoint (t ++ u) = nonPoint t + nonPoint u := by
  simp [nonPoint]

theorem nonPoint_eq_length (t : List Char) (h : ∀ c ∈ t, c ≠ '.') : nonPoint t = t.length := by
  unfold nonPoint
  rw [List.filter_eq_self.mpr]
  intro c hc
  simpa using h c hc

theorem length_toDigitsCore (fuel : Nat) : ∀ (n : Nat) (acc : List Char), n < fuel →
    (Nat.toDigitsCore 10 fuel n acc).length = acc.length + max 1 (decLen n) := by
  induction fuel with
  | zero => intro n acc h; omega
  | succ fuel ih =>
    intro n acc h
    rw [Nat.toDigitsCore]
    by_cases h0 : n / 10 = 0
    · simp only [h0, if_true, List.length_cons, decLen_small n h0]
    · simp only [h0, if_false]
      rw [ih _ _ (by omega), decLen_big n h0, List.length_cons]
      omega

theorem length_toDigits (n : Nat) : (Nat.toDigits 10 n).length = max 1 (decLen n) := by
  unfold Nat.toDigits
  rw [length_toDigitsCore _ _ _ (Nat.lt_succ_self n)]
  simp

theorem nonPoint_toDigits (n : Nat) : nonPoint (Nat.toDigits 10 n) = max 1 (decLen n) := by
  rw [nonPoint_eq_length _ (fun c hc => (mem_toDigits n c hc).2), length_toDigits]

theorem doLoop_count (fuel : Nat) : ∀ (n : Nat) (i : Int) (str : List Char), n < fuel →
    (FIXED.doLoop fuel n i str).1 = i - (max 1 (decLen n) : Nat)
      ∧ nonPoint (FIXED.doLoop fuel n i str).2 = nonPoint str + max 1 (decLen n)
      ∧ (FIXED.doLoop fuel n i str).2.length
          = str.length + max 1 (decLen n)
            + (if 1 ≤ i ∧ i ≤ (max 1 (decLen n) : Nat) then 1 else 0) := by
  induction fuel with
  | zero => intro n i str h; omega
  | succ fuel ih =>
    intro n i str h
    have hd := (ofNat_digit_ne (n - 10 * (n / 10)) (by omega)).2
    simp only [FIXED.doLoop]
    by_cases h0 : n / 10 = 0
    · simp only [h0, ne_eq, not_true_eq_false, if_false, decLen_small n h0]
      refine ⟨by simp, ?_, ?_⟩
      · split
        · rw [nonPoint_point, nonPoint_cons _ _ (by simpa [h0] using hd)]
        · rw [nonPoint_cons _ _ (by simpa [h0] using hd)]
      · split <;> split <;> simp <;> omega
    · simp only [h0, ne_eq, not_false_eq_true, if_true]
      obtain ⟨h1, h2, h3⟩ := ih (n / 10) (i - 1)
        (if i - 1 = 0 then '.' :: Char.ofNat (n - 10 * (n / 10) + 48) :: str
          else Char.ofNat (n - 10 * (n / 10) + 48) :: str) (by omega)
      rw [h1, h2, h3, decLen_big n h0]
      refine ⟨by push_cast; omega, ?_, ?_⟩
      · split
        · rw [nonPoint_point, nonPoint_cons _ _ hd]; omega
        · rw [nonPoint_cons _ _ hd]; omega
      · have hK : 1 ≤ max 1 (decLen (n / 10)) := le_max_left _ _
        split <;> split <;> split <;> simp <;> omega

theorem fillLoop_count (fuel : Nat) : ∀ (i : Int) (str : List Char), (i + 1).toNat ≤ fuel →
    nonPoint (FIXED.fillLoop fuel i str) = nonPoint str + (i + 1).toNat
      ∧ (FIXED.fillLoop fuel i str).length
          = str.length + (i + 1).toNat + (if 0 ≤ i then 1 else 0) := by
  induction fuel with
  | zero =>
    intro i str h
    have : ¬ (0 ≤ i) := by omega
    simp only [FIXED.fillLoop, this, if_false]
    omega
  | succ fuel ih =>
    intro i str h
    simp only [FIXED.fillLoop]
    by_cases hi : i ≥ 0
    · simp only [hi, if_true]
      obtain ⟨h1, h2⟩ := ih (i - 1) (if i = 0 then '0' :: '.' :: str else '0' :: str) (by omega)
      rw [h1, h2]
      have hi' : 0 ≤ i := hi
      by_cases hz : i = 0
      · subst hz
        simp [nonPoint_cons, nonPoint_point]
      · have h3 : 0 ≤ i - 1 := by omega
        simp only [hz, if_false, h3, hi', if_true, List.length_cons]
        rw [nonPoint_cons _ _ (by decide)]
        omega
    · have hi' : ¬ (0 ≤ i) := hi
      simp only [hi, hi', if_false]
      omega

theorem magnitude_eq (val : Int) (h : isLong val) :
    (if val < 0 then toULong (wrap32 (-val)) else toULong val) = val.natAbs := by
  unfold isLong at h
  unfold toULong wrap32
  split <;> omega

theorem assemble_count (val digits : Int) (hv : isLong val) (hd : 0 < digits) :
    nonPoint (FIXED.assemble ⟨val, digits⟩)
        = (if val < 0 then 1 else 0) + max (max 1 (decLen val.natAbs)) (digits.toNat + 1)
      ∧ (FIXED.assemble ⟨val, digits⟩).length
        = nonPoint (FIXED.assemble ⟨val, digits⟩)
          + (if digits.toNat ≤ max 1 (decLen val.natAbs) then 1 else 0)
          + (if max 1 (decLen val.natAbs) ≤ digits.toNat then 1 else 0) := by
  unfold FIXED.assemble
  simp only [magnitude_eq val hv]
  obtain ⟨h1, h2, h3⟩ := doLoop_count (val.natAbs + 1) val.natAbs digits [] (Nat.lt_succ_self _)
  obtain ⟨h4, h5⟩ := fillLoop_count
    ((FIXED.doLoop (val.natAbs + 1) val.natAbs digits []).1 + 1).toNat
    (FIXED.doLoop (val.natAbs + 1) val.natAbs digits []).1
    (FIXED.doLoop (val.natAbs + 1) val.natAbs digits []).2 (le_refl _)
  have e0 : nonPoint ([] : List Char) = 0 := rfl
  by_cases hneg : val < 0
  · simp only [hneg, if_true, List.length_cons]
    rw [nonPoint_cons _ _ (by decide), h4, h5, h3, h2, h1, e0]
    generalize max 1 (decLen val.natAbs) = K at *
    simp only [List.length_nil]
    refine ⟨by omega, ?_⟩
    split <;> split <;> split <;> split <;> omega
  · simp only [hneg, if_false]
    rw [h4, h5, h3, h2, h1, e0]
    generalize max 1 (decLen val.natAbs) = K at *
    simp only [List.length_nil]
    refine ⟨by omega, ?_⟩
    split <;> split <;> split <;> split <;> omega

theorem print_count (val : Int) :
    nonPoint (print val) = (if val < 0 then 1 else 0) + max 1 (decLen val.natAbs) := by
  unfold print
  split
  · rw [nonPoint_cons _ _ (by decide), nonPoint_toDigits]; omega
  · rw [nonPoint_toDigits]; omega

theorem text_count (val digits : Int) (hv : isLong val) (hd : 0 ≤ digits) :
    nonPoint (FIXED.text ⟨val, digits⟩)
      = (if val < 0 then 1 else 0) + max (decLen val.natAbs) (digits.toNat + 1) := by
  unfold FIXED.text
  by_cases h0 : digits ≤ 0
  · have : digits.toNat = 0 := by omega
    simp only [h0, if_true, print_count, this]
    omega
  · simp only [h0, if_false]
    rw [(assemble_count val digits hv (by omega)).1]
    omega

/-! ## The loops of `_LEADING0` -/

theorem wrap32_small (x : Int) (h1 : -2147483648 ≤ x) (h2 : x ≤ 2147483647) :
    wrap32 x = x := by
  unfold wrap32; omega

theorem wrap32_mul10 (x : Int) : wrap32 (wrap32 x * 10) = wrap32 (x * 10) := by
  unfold wrap32; omega

theorem pow10_le (e : Nat) (h : e ≤ 9) : (10 : Int) ^ e ≤ 1000000000 := by
  have h1 : (10 : Nat) ^ e ≤ 10 ^ 9 := Nat.pow_le_pow_right (by norm_num) h
  have h2 : ((10 ^ e : Nat) : Int) ≤ ((10 ^ 9 : Nat) : Int) := Int.ofNat_le.mpr h1
  have h3 : ((10 ^ 9 : Nat) : Int) = 1000000000 := by norm_num
  rw [h3] at h2
  simpa using h2

theorem pow10_pos (e : Nat) : (0 : Int) < 10 ^ e := by positivity

theorem wrap32_pow (e : Nat) (h : e ≤ 9) : wrap32 (10 ^ e) = 10 ^ e :=
  wrap32_small _ (by have := pow10_pos e; omega) (by have := pow10_le e h; omega)

theorem incU8_small (s : Nat) (h : s < 255) : incU8 s = s + 1 := by
  unfold incU8; omega

theorem scaleLoop_pow (k : Nat) (hk : k ≤ 9) (fuel : Nat) : ∀ s : Nat, s ≤ k → k - s < fuel →
    LEADING0.scaleLoop (k : Int) fuel s (10 ^ s) = some (k, 10 ^ k) := by
  induction fuel with
  | zero => intro s _ h; omega
  | succ fuel ih =>
    intro s hs hf
    simp only [LEADING0.scaleLoop]
    by_cases h : (s : Int) < (k : Int)
    · simp only [h, if_true]
      have hs' : s < k := by omega
      rw [incU8_small s (by omega), ← pow_succ, wrap32_pow (s + 1) (by omega)]
      exact ih (s + 1) (by omega) (by omega)
    · simp only [h, if_false]
      have : s = k := by omega
      subst this
      rfl

theorem cast_lt_pow (n e : Nat) : ((n : Int) < 10 ^ e) ↔ decLen n ≤ e := by
  rw [← lt_pow_iff_decLen]
  constructor
  · intro h
    have : (n : Int) < ((10 ^ e : Nat) : Int) := by simpa using h
    exact Int.ofNat_lt.mp this
  · intro h
    have : (n : Int) < ((10 ^ e : Nat) : Int) := Int.ofNat_lt.mpr h
    simpa using this

theorem padLoop_zeros (size n : Nat) (hsize : size ≤ 10) (fuel : Nat) :
    ∀ (s e : Nat) (obj : List Char), e ≤ s → size - s < fuel →
      ∃ z, LEADING0.padLoop size (n : Int) fuel s (wrap32 (10 ^ e)) obj
            = some (obj ++ List.replicate z '0')
        ∧ z + min (size - s) (decLen n - e) = size - s := by
  induction fuel with
  | zero => intro s e obj _ h; omega
  | succ fuel ih =>
    intro s e obj he hf
    simp only [LEADING0.padLoop]
    by_cases h : s < size
    · simp only [h, if_true]
      rw [incU8_small s (by omega), wrap32_mul10, ← pow_succ, wrap32_pow e (by omega)]
      by_cases hz : decLen n ≤ e
      · rw [if_pos ((cast_lt_pow n e).mpr hz)]
        obtain ⟨z, h1, h2⟩ := ih (s + 1) (e + 1) (obj ++ ['0']) (by omega) (by omega)
        refine ⟨z + 1, ?_, by omega⟩
        rw [h1, List.replicate_succ]
        simp
      · rw [if_neg (fun hc => hz ((cast_lt_pow n e).mp hc))]
        obtain ⟨z, h1, h2⟩ := ih (s + 1) (e + 1) obj (by omega) (by omega)
        exact ⟨z, h1, by omega⟩
    · simp only [h, if_false]
      exact ⟨0, by simp, by omega⟩

theorem LEADING0_body (obj : List Char) (v k : Int) :
    (if k ≤ 0 then some (obj ++ print v)
      else
        match FIXED.operatorShl ⟨v, k⟩ with
        | none => none
        | some body => some (obj ++ body))
      = Option.map (fun body => obj ++ body) (FIXED.operatorShl ⟨v, k⟩) := by
  by_cases hk : k ≤ 0
  · simp [FIXED.operatorShl, hk]
  · simp only [hk, if_false]
    cases FIXED.operatorShl ⟨v, k⟩ <;> rfl

theorem LEADING0_shape (value : Int) (k width : Nat)
    (hlo : -2147483648 < value) (hhi : value ≤ 2147483647) (hk : k ≤ 9) (hw : width ≤ 10) :
    ∃ z : Nat,
      z = width - ((if value < 0 then 1 else 0) + max (decLen value.natAbs) (k + 1))
      ∧ LEADING0.operatorShl ⟨value, (k : Int), width⟩
        = Option.map (fun body => (if value < 0 then ['-'] else []) ++ (List.replicate z '0' ++ body))
            (FIXED.operatorShl ⟨(value.natAbs : Int), (k : Int)⟩) := by
  have hscale := scaleLoop_pow k hk 257 0 (by omega) (by omega)
  rw [pow_zero] at hscale
  have hv : (if value < 0 then wrap32 (-value) else value) = (value.natAbs : Int) := by
    split
    · rw [wrap32_small _ (by omega) (by omega)]; omega
    · omega
  have hpad : ∀ (s : Nat) (obj : List Char), k ≤ s → s ≤ k + 1 →
      ∃ z : Nat, z = width - ((s - k) + max (decLen value.natAbs) (k + 1))
        ∧ (match
            LEADING0.padLoop width (value.natAbs : Int) 257
              (if (value.natAbs : Int) < 10 ^ k then (incU8 s, wrap32 (10 ^ k * 10)) else (s, 10 ^ k)).1
              (if (value.natAbs : Int) < 10 ^ k then (incU8 s, wrap32 (10 ^ k * 10)) else (s, 10 ^ k)).2
              obj with
          | none => none
          | some obj =>
            if (k : Int) ≤ 0 then some (obj ++ print (value.natAbs : Int))
            else
              match FIXED.operatorShl ⟨(value.natAbs : Int), (k : Int)⟩ with
              | none => none
              | some body => some (obj ++ body))
          = Option.map (fun body => obj ++ (List.replicate z '0' ++ body))
              (FIXED.operatorShl ⟨(value.natAbs : Int), (k : Int)⟩) := by
    intro s obj hs1 hs2
    by_cases hz : decLen value.natAbs ≤ k
    · rw [if_pos ((cast_lt_pow _ k).mpr hz)]
      simp only []
      rw [incU8_small s (by omega), ← pow_succ]
      obtain ⟨z, h1, h2⟩ := padLoop_zeros width value.natAbs hw 257 (s + 1) (k + 1) obj
        (by omega) (by omega)
      refine ⟨z, by omega, ?_⟩
      rw [h1]
      simp only []
      rw [LEADING0_body]
      cases FIXED.operatorShl ⟨(value.natAbs : Int), (k : Int)⟩ <;> simp
    · rw [if_neg (fun hc => hz ((cast_lt_pow _ k).mp hc))]
      simp only []
      obtain ⟨z, h1, h2⟩ := padLoop_zeros width value.natAbs hw 257 s k obj
        (by omega) (by omega)
      rw [wrap32_pow k hk] at h1
      refine ⟨z, by omega, ?_⟩
      rw [h1]
      simp only []
      rw [LEADING0_body]
      cases FIXED.operatorShl ⟨(value.natAbs : Int), (k : Int)⟩ <;> simp
  unfold LEADING0.operatorShl
  simp only [hscale]
  by_cases hneg : value < 0
  · have hv' : wrap32 (-value) = (value.natAbs : Int) := by simpa [hneg] using hv
    simp only [hneg, if_true, hv']
    obtain ⟨z, h1, h2⟩ := hpad (incU8 k) ['-'] (by rw [incU8_small k (by omega)]; omega)
      (by rw [incU8_small k (by omega)])
    rw [incU8_small k (by omega)] at h1
    exact ⟨z, by omega, h2⟩
  · have hv' : value = (value.natAbs : Int) := by simpa [hneg] using hv
    simp only [hneg, if_false]
    rw [← hv']
    rw [← hv'] at hpad
    obtain ⟨z, h1, h2⟩ := hpad k [] (by omega) (by omega)
    exact ⟨z, by omega, by simpa using h2⟩

/-! ## The loops of the `_DYNAMIC` constructor -/

theorem tdiv10 (x : Int) : Int.tdiv x 10 = if 0 ≤ x then x / 10 else -((-x) / 10) := by
  split
  · exact Int.tdiv_eq_ediv (by assumption) (by norm_num)
  · have h : Int.tdiv x 10 = -(Int.tdiv (-x) 10) := by
      rw [Int.neg_tdiv, neg_neg]
    rw [h, Int.tdiv_eq_ediv (by omega) (by norm_num)]

theorem powLoop_pow (s : Nat) : ∀ e : Nat, e + s ≤ 9 →
    DYNAMIC.powLoop s (10 ^ e) = 10 ^ (e + s) := by
  induction s with
  | zero => intro e _; rfl
  | succ s ih =>
    intro e h
    simp only [DYNAMIC.powLoop]
    rw [← pow_succ, wrap32_pow (e + 1) (by omega), ih (e + 1) (by omega)]
    congr 1
    omega

theorem abs_eq_natAbs (x : Int) (hlo : -2147483648 < x) (hhi : x ≤ 2147483647) :
    abs x = (x.natAbs : Int) := by
  unfold abs
  split
  · omega
  · rw [wrap32_small _ (by omega) (by omega)]; omega

/-- C5: for every 32-bit signed `val` and every `digits >= 0`, the text written
by the `_FIXED` renderer begins with `-` if and only if `val < 0`, and has no
`-` after its first character.  This holds of every text the renderer writes,
and of the assembled text whatever the capacity of the buffer. -/
theorem FIXED_minus_iff_negative (val digits : Int) (_hv : isLong val) (_hd : 0 ≤ digits) :
    (∀ t, FIXED.operatorShl ⟨val, digits⟩ = some t →
        (t.head? = some '-' ↔ val < 0) ∧ '-' ∉ t.tail)
      ∧ ((FIXED.text ⟨val, digits⟩).head? = some '-' ↔ val < 0)
      ∧ '-' ∉ (FIXED.text ⟨val, digits⟩).tail := by
  refine ⟨fun t ht => ?_, text_sign val digits⟩
  rw [operatorShl_eq_text _ t ht]
  exact text_sign val digits

/-- The sign property at `_FIXED(-1234, 2)`, rendered `-12.34`. -/
theorem FIXED_minus_iff_negative_witness :
    isLong (-1234) ∧ (0 : Int) ≤ 2
      ∧ FIXED.operatorShl ⟨-1234, 2⟩ = some "-12.34".toList
      ∧ ("-12.34".toList.head? = some '-' ↔ (-1234 : Int) < 0)
      ∧ '-' ∉ "-12.34".toList.tail :=
  ⟨by decide, by decide, by decide,
    (FIXED_minus_iff_negative (-1234) 2 (by decide) (by decide)).1 _ (by decide)⟩

/-- C10: for every `val` and every `digits <= 0` the `_FIXED` renderer writes
exactly the sink's print of `val`, the plain decimal representation of the
integer, and this text has no decimal point. -/
theorem FIXED_plain_integer (val digits : Int) (hd : digits ≤ 0) :
    FIXED.operatorShl ⟨val, digits⟩ = some (print val)
      ∧ '.' ∉ print val
      ∧ String.mk (print val) = toString val := by
  refine ⟨by simp [FIXED.operatorShl, hd], ?_, print_eq_toString val⟩
  intro h
  unfold print at h
  split at h
  · rcases List.mem_cons.mp h with h | h
    · exact absurd h (by decide)
    · exact (mem_toDigits _ _ h).2 rfl
  · exact (mem_toDigits _ _ h).2 rfl

/-- The plain-integer rendering at `_FIXED(-1234, -3)`. -/
theorem FIXED_plain_integer_witness :
    (-3 : Int) ≤ 0
      ∧ FIXED.operatorShl ⟨-1234, -3⟩ = some (print (-1234))
      ∧ '.' ∉ print (-1234)
      ∧ String.mk (print (-1234)) = toString (-1234 : Int) :=
  ⟨by decide, FIXED_plain_integer (-1234) (-3) (by decide)⟩

/-! ## `_DYNAMIC` with a zero budget -/

/-- C6, as stated, fails: `_DYNAMIC(1234, 2, 0)` is rendered `12.34`, which is
not the plain decimal representation `1234` and has a decimal point. -/
theorem DYNAMIC_zero_budget_keeps_point :
    DYNAMIC.operatorShl (DYNAMIC.ctor 1234 2 0) = some "12.34".toList
      ∧ DYNAMIC.operatorShl (DYNAMIC.ctor 1234 2 0) ≠ some (print 1234)
      ∧ '.' ∈ "12.34".toList := by
  decide

/-- C6, amended: with budget `s = 0` the constructor of `_DYNAMIC` performs no
rounding and keeps the requested digit count (`0` for a negative `d`), and the
rendering is the `_FIXED` rendering of `(v, d)`: the plain decimal
representation without a decimal point when `d <= 0`, a text with a decimal
point when `d > 0`. -/
theorem DYNAMIC_zero_budget (v d : Int) (hv : isLong v) :
    DYNAMIC.ctor v d 0 = ⟨v, if d < 0 then 0 else d⟩
      ∧ DYNAMIC.operatorShl (DYNAMIC.ctor v d 0) = FIXED.operatorShl ⟨v, d⟩
      ∧ (d ≤ 0 → DYNAMIC.operatorShl (DYNAMIC.ctor v d 0) = some (print v) ∧ '.' ∉ print v)
      ∧ (0 < d → ∀ t, DYNAMIC.operatorShl (DYNAMIC.ctor v d 0) = some t → '.' ∈ t) := by
  have hctor : DYNAMIC.ctor v d 0 = ⟨v, if d < 0 then 0 else d⟩ := by
    simp [DYNAMIC.ctor]
  have hshl : DYNAMIC.operatorShl (DYNAMIC.ctor v d 0) = FIXED.operatorShl ⟨v, d⟩ := by
    rw [hctor]
    unfold DYNAMIC.operatorShl FIXED.operatorShl
    by_cases h1 : d < 0
    · have h2 : d ≤ 0 := by omega
      simp [h1, h2]
    · by_cases h3 : d ≤ 0 <;> simp [h1, h3]
  have hpoint : '.' ∉ print v := by
    intro h
    unfold print at h
    split at h
    · rcases List.mem_cons.mp h with h | h
      · exact absurd h (by decide)
      · exact (mem_toDigits _ _ h).2 rfl
    · exact (mem_toDigits _ _ h).2 rfl
  refine ⟨hctor, hshl, fun h => ⟨?_, hpoint⟩, fun h t ht => ?_⟩
  · rw [hshl]; simp [FIXED.operatorShl, h]
  · rw [hshl] at ht
    have htext := operatorShl_eq_text _ t ht
    have hnot : ¬ (d ≤ 0) := by omega
    simp only [FIXED.text, hnot, if_false] at htext
    obtain ⟨_, hlen⟩ := assemble_count v d hv h
    by_contra hmem
    have heq := nonPoint_eq_length t (fun c hc hcp => hmem (hcp ▸ hc))
    rw [← htext, heq] at hlen
    split at hlen <;> split at hlen <;> omega

/-- The zero budget at `_DYNAMIC(1234, 2, 0)`, rendered `12.34`. -/
theorem DYNAMIC_zero_budget_witness :
    isLong 1234
      ∧ DYNAMIC.ctor 1234 2 0 = ⟨1234, 2⟩
      ∧ DYNAMIC.operatorShl (DYNAMIC.ctor 1234 2 0) = FIXED.operatorShl ⟨1234, 2⟩
      ∧ '.' ∈ "12.34".toList :=
  ⟨by decide, (DYNAMIC_zero_budget 1234 2 (by decide)).1,
    (DYNAMIC_zero_budget 1234 2 (by decide)).2.1,
    (DYNAMIC_zero_budget 1234 2 (by decide)).2.2.2 (by decide) _ (by decide)⟩

/-! ## The field width of `_LEADING0` -/

/-- C8, as stated, fails: `_LEADING0(1234, 2, 5)` is rendered `012.34`, six
characters with the decimal point, while the unpadded rendering `12.34` has
five and the width is five. -/
theorem LEADING0_point_not_counted :
    LEADING0.operatorShl (LEADING0.ctor 1234 2 5) = some "012.34".toList
      ∧ FIXED.operatorShl ⟨1234, 2⟩ = some "12.34".toList
      ∧ "012.34".toList.length ≠ max 5 "12.34".toList.length := by
  decide

theorem ctor_digits (value digits : Int) (width : Nat) (hw : width ≤ 10) :
    ∃ k : Nat, k ≤ 9 ∧ LEADING0.ctor value digits width = ⟨value, (k : Int), width⟩ := by
  unfold LEADING0.ctor
  by_cases h : digits < 0 ∨ digits ≥ width
  · exact ⟨0, by omega, by simp [h]⟩
  · refine ⟨digits.toNat, by omega, ?_⟩
    have : ((digits.toNat : Nat) : Int) = digits := by omega
    simp only [h, if_false, this]

/-- C8, amended: for every `value` with `-2^31 < value < 2^31`, every `digits`
and every `width <= 10`, the `_LEADING0` renderer writes a text exactly when
the `_FIXED` rendering of the magnitude fits its buffer, and the number of
characters of that text other than the decimal point equals the maximum of
`width` and the number of such characters in the unpadded `_FIXED` rendering
of `value` with the stored digit count: the decimal point is not counted in
the width. -/
theorem LEADING0_width (value digits : Int) (width : Nat)
    (hlo : -2147483648 < value) (hhi : value ≤ 2147483647) (hw : width ≤ 10) :
    (LEADING0.operatorShl (LEADING0.ctor value digits width)).isSome
        = (FIXED.operatorShl
            ⟨(value.natAbs : Int), (LEADING0.ctor value digits width).digits⟩).isSome
      ∧ ∀ t, LEADING0.operatorShl (LEADING0.ctor value digits width) = some t →
          nonPoint t = max width
            (nonPoint (FIXED.text ⟨value, (LEADING0.ctor value digits width).digits⟩)) := by
  obtain ⟨k, hk, hctor⟩ := ctor_digits value digits width hw
  obtain ⟨z, hz, hshape⟩ := LEADING0_shape value k width hlo hhi hk hw
  rw [hctor, hshape]
  refine ⟨by simp, fun t ht => ?_⟩
  simp only [Option.map_eq_some'] at ht
  obtain ⟨body, hbody, rfl⟩ := ht
  have hb := operatorShl_eq_text _ _ hbody
  have c1 := text_count (value.natAbs : Int) (k : Int) ⟨by omega, by omega⟩ (by omega)
  have c2 := text_count value (k : Int) ⟨by omega, by omega⟩ (by omega)
  have c3 : nonPoint (List.replicate z '0') = z := by
    rw [nonPoint_eq_length _ (fun c hc => by rw [(List.mem_replicate.mp hc).2]; decide)]
    simp
  have c4 : nonPoint (if value < 0 then ['-'] else []) = if value < 0 then 1 else 0 := by
    split <;> rfl
  have hn : ¬ ((value.natAbs : Int) < 0) := by omega
  have e1 : ((value.natAbs : Int)).natAbs = value.natAbs := Int.natAbs_ofNat _
  have e2 : ((k : Int)).toNat = k := Int.toNat_ofNat _
  rw [e1, e2, if_neg hn] at c1
  rw [e2] at c2
  rw [nonPoint_append, nonPoint_append, c3, c4, hb, c1, c2]
  generalize decLen value.natAbs = L at *
  by_cases hneg : value < 0
  · simp only [hneg, if_true] at hz ⊢
    omega
  · simp only [hneg, if_false] at hz ⊢
    omega

/-- The width at `_LEADING0(-1234, 2, 7)`, rendered `-0012.34`. -/
theorem LEADING0_width_witness :
    (LEADING0.operatorShl (LEADING0.ctor (-1234) 2 7)).isSome
        = (FIXED.operatorShl ⟨1234, 2⟩).isSome
      ∧ nonPoint "-0012.34".toList = max 7 (nonPoint (FIXED.text ⟨-1234, 2⟩)) :=
  ⟨(LEADING0_width (-1234) 2 7 (by decide) (by decide) (by decide)).1,
    (LEADING0_width (-1234) 2 7 (by decide) (by decide) (by decide)).2 _ (by decide)⟩

/-! ## The digit count stored by `_LEADING0` -/

/-- C9: for every `v` and `s`, and every `d` with `d < 0` or `d >= s`, the
constructor `_LEADING0(v, d, s)` stores `digits = 0` and the rendering is the
rendering of `_LEADING0(v, 0, s)`; for `0 <= d < s` the stored `digits` is
`d`. -/
theorem LEADING0_digits_clamp (v d : Int) (s : Nat) :
    ((d < 0 ∨ d ≥ s) →
        (LEADING0.ctor v d s).digits = 0
          ∧ LEADING0.operatorShl (LEADING0.ctor v d s)
            = LEADING0.operatorShl (LEADING0.ctor v 0 s))
      ∧ ((0 ≤ d ∧ d < s) → (LEADING0.ctor v d s).digits = d) := by
  have h0 : LEADING0.ctor v 0 s = ⟨v, 0, s⟩ := by
    unfold LEADING0.ctor
    split <;> rfl
  constructor
  · intro h
    have : LEADING0.ctor v d s = ⟨v, 0, s⟩ := by simp [LEADING0.ctor, h]
    rw [this, h0]
    exact ⟨rfl, rfl⟩
  · intro h
    have hn : ¬ (d < 0 ∨ d ≥ s) := by omega
    simp [LEADING0.ctor, hn]

/-- The clamp at `_LEADING0(1234, 7, 5)` and `_LEADING0(1234, 2, 5)`. -/
theorem LEADING0_digits_clamp_witness :
    ((LEADING0.ctor 1234 7 5).digits = 0
        ∧ LEADING0.operatorShl (LEADING0.ctor 1234 7 5)
          = LEADING0.operatorShl (LEADING0.ctor 1234 0 5))
      ∧ (LEADING0.ctor 1234 2 5).digits = 2 :=
  ⟨(LEADING0_digits_clamp 1234 7 5).1 (by decide),
    (LEADING0_digits_clamp 1234 2 5).2 (by decide)⟩

/-! ## Decimal representation, digit by digit -/

theorem toDigitsCore_acc (fuel : Nat) : ∀ (n : Nat) (ds : List Char),
    Nat.toDigitsCore 10 fuel n ds = Nat.toDigitsCore 10 fuel n [] ++ ds := by
  induction fuel with
  | zero => intro n ds; simp [Nat.toDigitsCore]
  | succ fuel ih =>
    intro n ds
    simp only [Nat.toDigitsCore]
    split
    · simp
    · rw [ih _ (_ :: ds), ih _ [_]]
      simp

theorem toDigitsCore_fuel (f1 : Nat) : ∀ (f2 n : Nat) (ds : List Char), n < f1 → n < f2 →
    Nat.toDigitsCore 10 f1 n ds = Nat.toDigitsCore 10 f2 n ds := by
  induction f1 with
  | zero => intro f2 n ds h; omega
  | succ f1 ih =>
    intro f2 n ds h1 h2
    cases f2 with
    | zero => omega
    | succ f2 =>
      simp only [Nat.toDigitsCore]
      split
      · rfl
      · exact ih f2 _ _ (by omega) (by omega)

theorem toDigits_small (n : Nat) (h : n / 10 = 0) :
    Nat.toDigits 10 n = [Nat.digitChar (n % 10)] := by
  simp [Nat.toDigits, Nat.toDigitsCore, h]

theorem toDigits_big (n : Nat) (h : n / 10 ≠ 0) :
    Nat.toDigits 10 n = Nat.toDigits 10 (n / 10) ++ [Nat.digitChar (n % 10)] := by
  unfold Nat.toDigits
  rw [Nat.toDigitsCore]
  simp only [h, if_false]
  rw [toDigitsCore_acc, toDigitsCore_fuel n (n / 10 + 1) (n / 10) [] (by omega) (by omega)]

theorem ofNat_eq_digitChar (n : Nat) :
    Char.ofNat (n - 10 * (n / 10) + 48) = Nat.digitChar (n % 10) := by
  have h : n - 10 * (n / 10) = n % 10 := by omega
  rw [h]
  have : n % 10 < 10 := Nat.mod_lt _ (by norm_num)
  generalize n % 10 = d at this
  interval_cases d <;> decide

theorem doLoop_plain (fuel : Nat) : ∀ (n : Nat) (i : Int) (str : List Char), n < fuel →
    (i ≤ 0 ∨ ((max 1 (decLen n) : Nat) : Int) < i) →
    FIXED.doLoop fuel n i str
      = (i - ((max 1 (decLen n) : Nat) : Int), Nat.toDigits 10 n ++ str) := by
  induction fuel with
  | zero => intro n i str h; omega
  | succ fuel ih =>
    intro n i str h hi
    simp only [FIXED.doLoop]
    rw [ofNat_eq_digitChar]
    have hK : 1 ≤ max 1 (decLen n) := le_max_left _ _
    have hne : ¬ (i - 1 = 0) := by omega
    simp only [hne, if_false]
    by_cases h0 : n / 10 = 0
    · simp only [h0, ne_eq, not_true_eq_false, if_false, decLen_small n h0, toDigits_small n h0]
      simp
    · simp only [h0, ne_eq, not_false_eq_true, if_true]
      rw [decLen_big n h0] at hi ⊢
      rw [ih _ _ _ (by omega) (by omega), toDigits_big n h0]
      simp only [List.append_assoc, List.singleton_append, Prod.mk.injEq, and_true]
      push_cast
      omega

theorem doLoop_point (fuel : Nat) : ∀ (n k : Nat) (str : List Char), n < fuel →
    1 ≤ k → k < max 1 (decLen n) →
    FIXED.doLoop fuel n (k : Int) str
      = ((k : Int) - ((max 1 (decLen n) : Nat) : Int),
          Nat.toDigits 10 (n / 10 ^ k) ++ '.' :: (lowDigits k n ++ str)) := by
  induction fuel with
  | zero => intro n k str h; omega
  | succ fuel ih =>
    intro n k str h hk1 hk2
    have h0 : n / 10 ≠ 0 := by
      intro h0
      rw [decLen_small n h0] at hk2
      omega
    simp only [FIXED.doLoop]
    rw [ofNat_eq_digitChar]
    simp only [h0, ne_eq, not_false_eq_true, if_true]
    rw [decLen_big n h0] at hk2 ⊢
    by_cases h1 : k = 1
    · subst h1
      simp only [Nat.cast_one, sub_self, if_true]
      rw [doLoop_plain fuel _ _ _ (by omega) (Or.inl (le_refl _))]
      simp only [lowDigits, pow_one, List.nil_append, List.singleton_append, Prod.mk.injEq,
        and_true]
      push_cast
      omega
    · have hne : ¬ ((k : Int) - 1 = 0) := by omega
      simp only [hne, if_false]
      obtain ⟨j, rfl⟩ : ∃ j, k = j + 1 := ⟨k - 1, by omega⟩
      have hc : ((j + 1 : Nat) : Int) - 1 = (j : Int) := by push_cast; omega
      rw [hc, ih _ j _ (by omega) (by omega) (by omega)]
      simp only [lowDigits, List.append_assoc, List.singleton_append, Prod.mk.injEq]
      refine ⟨by push_cast; omega, ?_⟩
      rw [Nat.div_div_eq_div_mul, pow_succ, Nat.mul_comm]

theorem fillLoop_neg (fuel : Nat) (i : Int) (str : List Char) (h : i < 0) :
    FIXED.fillLoop fuel i str = str := by
  cases fuel with
  | zero => rfl
  | succ fuel =>
    have : ¬ (i ≥ 0) := by omega
    simp [FIXED.fillLoop, this]

theorem fillLoop_zeros (fuel : Nat) : ∀ (k : Nat) (str : List Char), k + 1 ≤ fuel →
    FIXED.fillLoop fuel (k : Int) str = '0' :: '.' :: (List.replicate k '0' ++ str) := by
  induction fuel with
  | zero => intro k str h; omega
  | succ fuel ih =>
    intro k str h
    simp only [FIXED.fillLoop]
    have hk : (k : Int) ≥ 0 := by omega
    simp only [hk, if_true]
    cases k with
    | zero =>
      simp only [Nat.cast_zero, if_true, zero_sub]
      rw [fillLoop_neg _ _ _ (by omega)]
      simp
    | succ k =>
      have hne : ¬ (((k + 1 : Nat) : Int) = 0) := by omega
      have hc : ((k + 1 : Nat) : Int) - 1 = (k : Int) := by push_cast; omega
      simp only [hne, if_false, hc]
      rw [ih k _ (by omega), List.replicate_succ']
      simp

theorem lowDigits_pad (k : Nat) : ∀ n : Nat,
    lowDigits (k + 1) n
      = List.replicate (k + 1 - (Nat.toDigits 10 (n % 10 ^ (k + 1))).length) '0'
          ++ Nat.toDigits 10 (n % 10 ^ (k + 1)) := by
  induction k with
  | zero =>
    intro n
    have h : n % 10 / 10 = 0 := by omega
    simp [lowDigits, toDigits_small _ h]
  | succ k ih =>
    intro n
    have hdiv : n % 10 ^ (k + 2) / 10 = n / 10 % 10 ^ (k + 1) := by
      rw [pow_succ, Nat.mul_comm, Nat.mod_mul_right_div_self]
    have hmod : n % 10 ^ (k + 2) % 10 = n % 10 :=
      Nat.mod_mod_of_dvd n (Dvd.intro_left (10 ^ (k + 1)) (pow_succ 10 (k + 1)).symm)
    rw [lowDigits, ih (n / 10)]
    by_cases h0 : n % 10 ^ (k + 2) / 10 = 0
    · rw [toDigits_small _ h0, ← hdiv, h0, hmod]
      have : Nat.toDigits 10 0 = ['0'] := by decide
      rw [this]
      simp only [List.length_singleton, Nat.add_sub_cancel]
      rw [List.replicate_succ' k]
    · rw [toDigits_big _ h0, ← hdiv, hmod]
      simp only [List.length_append, List.length_singleton, List.append_assoc]
      congr 2
      omega

theorem nd_eq (n : Nat) : nd n = max 1 (decLen n) := length_toDigits n

theorem assemble_eq_reference (val digits : Int) (hv : isLong val) (hd : 1 ≤ digits)
    (hne : nd val.natAbs ≠ digits.toNat) :
    FIXED.assemble ⟨val, digits⟩ = fixedPointText val digits.toNat := by
  obtain ⟨D, rfl⟩ : ∃ D : Nat, digits = (D : Int) := ⟨digits.toNat, by omega⟩
  have hD : 1 ≤ D := by omega
  rw [nd_eq] at hne
  simp only [Int.toNat_ofNat] at hne ⊢
  unfold FIXED.assemble fixedPointText
  simp only [magnitude_eq val hv]
  have hbody : FIXED.fillLoop
        ((FIXED.doLoop (val.natAbs + 1) val.natAbs (D : Int) []).1 + 1).toNat
        (FIXED.doLoop (val.natAbs + 1) val.natAbs (D : Int) []).1
        (FIXED.doLoop (val.natAbs + 1) val.natAbs (D : Int) []).2
      = Nat.toDigits 10 (val.natAbs / 10 ^ D)
        ++ '.' :: (List.replicate (D - (Nat.toDigits 10 (val.natAbs % 10 ^ D)).length) '0'
          ++ Nat.toDigits 10 (val.natAbs % 10 ^ D)) := by
    rcases Nat.lt_or_gt_of_ne hne with hlt | hgt
    · -- fewer digits than `D`: the fill loop writes the zeros and `0.`
      rw [doLoop_plain _ _ _ _ (Nat.lt_succ_self _) (Or.inr (by omega))]
      simp only [List.append_nil]
      have hi : ((D : Int) - ((max 1 (decLen val.natAbs) : Nat) : Int))
          = ((D - max 1 (decLen val.natAbs) : Nat) : Int) := by omega
      rw [hi, fillLoop_zeros _ _ _ (by omega)]
      have hsmall : val.natAbs < 10 ^ D := (lt_pow_iff_decLen D _).mpr (by omega)
      rw [Nat.div_eq_of_lt hsmall, Nat.mod_eq_of_lt hsmall, length_toDigits]
      have : Nat.toDigits 10 0 = ['0'] := by decide
      rw [this]
      rfl
    · -- more digits than `D`: the digit loop writes the point
      rw [doLoop_point _ _ _ _ (Nat.lt_succ_self _) hD hgt]
      simp only [List.append_nil]
      rw [fillLoop_neg _ _ _ (by omega)]
      obtain ⟨j, rfl⟩ : ∃ j, D = j + 1 := ⟨D - 1, by omega⟩
      rw [lowDigits_pad]
  rw [hbody]
  split <;> simp

/-! ## The text of `_FIXED` -/

/-- C13: for every 32-bit `val`, every `digits >= 1` different from the number
of decimal digits of `|val|` (with `0` a one-digit number), the text the
`_FIXED` renderer writes when the rendering fits the buffer is the reference
text: optional `-`, the decimal digits of `|val| div 10^digits`, one `.`, then
`|val| mod 10^digits` zero-padded to `digits` characters.  The assembled text
is the reference text whatever the capacity of the buffer. -/
theorem FIXED_reference_text (val digits : Int) (hv : isLong val) (hd : 1 ≤ digits)
    (hne : nd val.natAbs ≠ digits.toNat) :
    (∀ t, FIXED.operatorShl ⟨val, digits⟩ = some t → t = fixedPointText val digits.toNat)
      ∧ FIXED.text ⟨val, digits⟩ = fixedPointText val digits.toNat := by
  have htext : FIXED.text ⟨val, digits⟩ = fixedPointText val digits.toNat := by
    have h0 : ¬ (digits ≤ 0) := by omega
    simp only [FIXED.text, h0, if_false]
    exact assemble_eq_reference val digits hv hd hne
  exact ⟨fun t ht => by rw [operatorShl_eq_text _ t ht, htext], htext⟩

/-- The reference text at `_FIXED(-1234, 2)` and `_FIXED(5, 3)`. -/
theorem FIXED_reference_text_witness :
    FIXED.operatorShl ⟨-1234, 2⟩ = some "-12.34".toList
      ∧ "-12.34".toList = fixedPointText (-1234) 2
      ∧ FIXED.text ⟨5, 3⟩ = fixedPointText 5 3 :=
  ⟨by decide,
    (FIXED_reference_text (-1234) 2 (by decide) (by decide) (by decide)).1 _ (by decide),
    (FIXED_reference_text 5 3 (by decide) (by decide) (by decide)).2⟩

/-! ## The buffer of `_FIXED` -/

/-- C11: the 12-byte buffer is too small for a negative value with ten digits:
for `_FIXED(-1234567890, 2)` the renderer assembles `-12345678.90`, twelve
characters, so with the terminator it needs 13 bytes and the last write, of the
sign, falls before the start of the buffer. -/
theorem FIXED_buffer_overrun :
    FIXED.assemble ⟨-1234567890, 2⟩ = "-12345678.90".toList
      ∧ "-12345678.90".toList.length = 12
      ∧ FIXED.operatorShl ⟨-1234567890, 2⟩ = none := by
  decide

/-! ## The padding of `_LEADING0` -/

theorem LEADING0_count (value : Int) (k width z : Nat) (t : List Char)
    (hlo : -2147483648 < value) (hhi : value ≤ 2147483647)
    (hz : z = width - ((if value < 0 then 1 else 0) + max (decLen value.natAbs) (k + 1)))
    (ht : Option.map
        (fun body => (if value < 0 then ['-'] else []) ++ (List.replicate z '0' ++ body))
        (FIXED.operatorShl ⟨(value.natAbs : Int), (k : Int)⟩) = some t) :
    nonPoint t
      = max width ((if value < 0 then 1 else 0) + max (decLen value.natAbs) (k + 1)) := by
  simp only [Option.map_eq_some'] at ht
  obtain ⟨body, hbody, rfl⟩ := ht
  have hb := operatorShl_eq_text _ _ hbody
  have c1 := text_count (value.natAbs : Int) (k : Int) ⟨by omega, by omega⟩ (by omega)
  have c3 : nonPoint (List.replicate z '0') = z := by
    rw [nonPoint_eq_length _ (fun c hc => by rw [(List.mem_replicate.mp hc).2]; decide)]
    simp
  have c4 : nonPoint (if value < 0 then ['-'] else []) = if value < 0 then 1 else 0 := by
    split <;> rfl
  have hn : ¬ ((value.natAbs : Int) < 0) := by omega
  have e1 : ((value.natAbs : Int)).natAbs = value.natAbs := Int.natAbs_ofNat _
  have e2 : ((k : Int)).toNat = k := Int.toNat_ofNat _
  rw [e1, e2, if_neg hn] at c1
  rw [nonPoint_append, nonPoint_append, c3, c4, hb, c1]
  generalize decLen value.natAbs = L at *
  by_cases hneg : value < 0
  · simp only [hneg, if_true] at hz ⊢
    omega
  · simp only [hneg, if_false] at hz ⊢
    omega

/-- C14: for every `value` with `|value| < 2^31`, every `digits` (clamped by
the constructor) and every `width <= 10`, the `_LEADING0` renderer writes `-`
when `value < 0`, then exactly `k` characters `0`, then the `_FIXED` rendering
of `(|value|, digits)`, with
`k = max(0, width - [value < 0] - max(nd |value|, digits + 1))`; the characters
of the text other than the decimal point are `max(width, [value < 0] +
max(nd |value|, digits + 1))` in number. -/
theorem LEADING0_padding (value digits : Int) (width : Nat)
    (hlo : -2147483648 < value) (hhi : value ≤ 2147483647) (hw : width ≤ 10) :
    LEADING0.operatorShl (LEADING0.ctor value digits width)
        = Option.map
            (fun body => (if value < 0 then ['-'] else [])
              ++ (List.replicate
                    (width - ((if value < 0 then 1 else 0)
                      + max (nd value.natAbs)
                          ((LEADING0.ctor value digits width).digits.toNat + 1))) '0'
                  ++ body))
            (FIXED.operatorShl
              ⟨(value.natAbs : Int), (LEADING0.ctor value digits width).digits⟩)
      ∧ ∀ t, LEADING0.operatorShl (LEADING0.ctor value digits width) = some t →
          nonPoint t = max width ((if value < 0 then 1 else 0)
            + max (nd value.natAbs) ((LEADING0.ctor value digits width).digits.toNat + 1)) := by
  obtain ⟨k, hk, hctor⟩ := ctor_digits value digits width hw
  obtain ⟨z, hz, hshape⟩ := LEADING0_shape value k width hlo hhi hk hw
  have hnd : max (nd value.natAbs) (k + 1) = max (decLen value.natAbs) (k + 1) := by
    rw [nd_eq]; omega
  have e2 : ((k : Int)).toNat = k := Int.toNat_ofNat _
  rw [hctor]
  simp only [e2, hnd]
  refine ⟨by rw [hshape, hz], fun t ht => ?_⟩
  rw [hshape] at ht
  exact LEADING0_count value k width z t hlo hhi hz ht

/-- The padding at `_LEADING0(-1234, 2, 7)`, rendered `-0012.34`. -/
theorem LEADING0_padding_witness :
    LEADING0.operatorShl (LEADING0.ctor (-1234) 2 7)
        = Option.map (fun body => ['-'] ++ (List.replicate 2 '0' ++ body))
            (FIXED.operatorShl ⟨1234, 2⟩)
      ∧ nonPoint "-0012.34".toList
          = max 7 ((if (-1234 : Int) < 0 then 1 else 0)
              + max (nd (-1234 : Int).natAbs) ((LEADING0.ctor (-1234) 2 7).digits.toNat + 1)) :=
  ⟨(LEADING0_padding (-1234) 2 7 (by decide) (by decide) (by decide)).1,
    (LEADING0_padding (-1234) 2 7 (by decide) (by decide) (by decide)).2 _ (by decide)⟩

/-! ## The padding loop of `_LEADING0` and its 8-bit counter -/

theorem padLoop_diverges (size : Nat) (v : Int) (hsize : 256 ≤ size) (fuel : Nat) :
    ∀ (s : Nat) (b : Int) (obj : List Char), s < 256 →
      LEADING0.padLoop size v fuel s b obj = none := by
  induction fuel with
  | zero => intro s b obj _; rfl
  | succ fuel ih =>
    intro s b obj hs
    have h : s < size := by omega
    simp only [LEADING0.padLoop, h, if_true]
    exact ih _ _ _ (by unfold incU8; omega)

/-- C12: for `_LEADING0(5, 0, 256)` the zero-padding loop never meets its exit
test: whatever the number of iterations allowed, it has not returned, because
the 8-bit counter `s` stays below `256`. -/
theorem LEADING0_pad_loop_diverges :
    (∀ fuel : Nat, LEADING0.padLoop 256 5 fuel 0 1 [] = none)
      ∧ LEADING0.operatorShl (LEADING0.ctor 5 0 256) = none := by
  refine ⟨fun fuel => padLoop_diverges 256 5 (le_refl _) fuel 0 1 [] (by decide), ?_⟩
  have h1 : LEADING0.ctor 5 0 256 = ⟨5, 0, 256⟩ := by decide
  have h2 : LEADING0.scaleLoop 0 257 0 1 = some (0, 1) := by decide
  rw [h1]
  unfold LEADING0.operatorShl
  simp only [h2]
  have h3 : ¬ ((5 : Int) < 0) := by decide
  have h4 : ¬ ((5 : Int) < 1) := by decide
  simp only [h3, h4, if_false]
  rw [padLoop_diverges 256 5 (le_refl _) 257 0 1 [] (by decide)]

/-! ## The reduction loop of the `_DYNAMIC` constructor -/

theorem roundLoop_step (fuel : Nat) (b val digits : Int) :
    DYNAMIC.roundLoop (fuel + 1) b val digits
      = if digits > 0 ∧ abs val ≥ b
        then DYNAMIC.roundLoop fuel b (DYNAMIC.step val) (digits - 1)
        else (val, digits) := rfl

theorem step_eq_roundStep (val : Int) (hlo : -2147483648 ≤ val) (hhi : val ≤ 2147483642) :
    DYNAMIC.step val = roundStep val := by
  unfold DYNAMIC.step roundStep
  rw [wrap32_small _ (by omega) (by omega)]

theorem roundStep_eq (x : Int) :
    roundStep x = if 0 ≤ x + 5 then (x + 5) / 10 else -((-(x + 5)) / 10) := by
  unfold roundStep
  exact tdiv10 (x + 5)

theorem roundLoop_iterate (b : Int) (fuel : Nat) : ∀ (val digits : Int),
    digits.toNat ≤ fuel → 0 ≤ digits → -2147483648 < val → val ≤ 2147483642 →
    ∃ k : Nat, (DYNAMIC.roundLoop fuel b val digits).2 = digits - k
      ∧ 0 ≤ (DYNAMIC.roundLoop fuel b val digits).2
      ∧ (DYNAMIC.roundLoop fuel b val digits).1 = roundStep^[k] val
      ∧ ((DYNAMIC.roundLoop fuel b val digits).2 = 0
          ∨ ((DYNAMIC.roundLoop fuel b val digits).1.natAbs : Int) < b)
      ∧ ∀ j : Nat, j < k → 0 < digits - j ∧ b ≤ ((roundStep^[j] val).natAbs : Int) := by
  induction fuel with
  | zero =>
    intro val digits hf hd hlo hhi
    refine ⟨0, ?_, ?_, rfl, Or.inl ?_, fun j hj => by omega⟩ <;>
      simp only [DYNAMIC.roundLoop] <;> omega
  | succ fuel ih =>
    intro val digits hf hd hlo hhi
    have habs := abs_eq_natAbs val hlo (by omega)
    simp only [DYNAMIC.roundLoop]
    by_cases hc : digits > 0 ∧ abs val ≥ b
    · simp only [hc, and_self, if_true]
      have hstep : Int.tdiv (wrap32 (val + 5)) 10 = roundStep val :=
        step_eq_roundStep val (by omega) hhi
      rw [hstep]
      have hr := roundStep_eq val
      obtain ⟨k, h1, h2, h3, h4, h5⟩ := ih (roundStep val) (digits - 1) (by omega) (by omega)
        (by rw [hr]; split <;> omega) (by rw [hr]; split <;> omega)
      refine ⟨k + 1, by rw [h1]; push_cast; omega, h2, ?_, h4, ?_⟩
      · rw [h3, Function.iterate_succ_apply]
      · intro j hj
        cases j with
        | zero =>
          simp only [Function.iterate_zero, id_eq, Nat.cast_zero, sub_zero]
          exact ⟨hc.1, by rw [← habs]; exact hc.2⟩
        | succ j =>
          obtain ⟨h6, h7⟩ := h5 j (by omega)
          rw [Function.iterate_succ_apply]
          exact ⟨by push_cast; omega, h7⟩
    · simp only [hc, if_false]
      refine ⟨0, by simp, hd, rfl, ?_, fun j hj => by omega⟩
      by_cases hd0 : digits = 0
      · exact Or.inl hd0
      · right
        rw [← habs]
        by_contra hb
        exact hc ⟨by omega, by omega⟩

/-- C15, as stated, fails at the ends of the 32-bit range: for
`_DYNAMIC(2147483647, 1, 4)` the sum `val + 5` leaves the range and the
constructor keeps `-214748364`, not `(2147483647 + 5) / 10 = 214748365`; for
`_DYNAMIC(-2147483648, 2, 4)` the magnitude test does not see the value and the
constructor keeps `(-2147483648, 2)`, with `digits` not zero and a magnitude
above `10^3`. -/
theorem DYNAMIC_reduction_overflow :
    DYNAMIC.ctor 2147483647 1 4 = ⟨-214748364, 0⟩
      ∧ roundStep^[1] 2147483647 = 214748365
      ∧ DYNAMIC.ctor (-2147483648) 2 4 = ⟨-2147483648, 2⟩
      ∧ ¬ ((2 : Int) = 0 ∨ (-2147483648 : Int).natAbs < 10 ^ (4 - 1)) := by
  decide

/-- C15, amended: for every `v` with `-2^31 < v <= 2^31 - 6`, every `d >= 0`
and every budget `1 <= s <= 9`, the constructor of `_DYNAMIC` ends with
`(val, digits)` such that `digits = 0` or `|val| < 10^(s - [v < 0])`; `val` is
the `k`-fold iterate of `x -> (x + 5) / 10` (truncating division) on `v` with
`k = d - digits`, and after fewer than `k` steps the condition does not hold
yet. -/
theorem DYNAMIC_reduction (v d : Int) (s : Nat)
    (hlo : -2147483648 < v) (hhi : v ≤ 2147483642) (hd : 0 ≤ d) (hs1 : 1 ≤ s) (hs9 : s ≤ 9) :
    ∃ k : Nat, (k : Int) = d - (DYNAMIC.ctor v d s).digits
      ∧ ((DYNAMIC.ctor v d s).digits = 0
          ∨ (DYNAMIC.ctor v d s).val.natAbs < 10 ^ (s - (if v < 0 then 1 else 0)))
      ∧ (DYNAMIC.ctor v d s).val = roundStep^[k] v
      ∧ ∀ j : Nat, j < k →
          ¬ (d - j = 0 ∨ (roundStep^[j] v).natAbs < 10 ^ (s - (if v < 0 then 1 else 0))) := by
  have hs0 : ¬ (s ≤ 0) := by omega
  have hd0 : ¬ (d < 0) := by omega
  have hS : (if v < 0 then s - 1 else s) = s - (if v < 0 then 1 else 0) := by
    split <;> omega
  have hp := powLoop_pow (s - (if v < 0 then 1 else 0)) 0 (by split <;> omega)
  rw [pow_zero, Nat.zero_add] at hp
  obtain ⟨k, h1, h2, h3, h4, h5⟩ := roundLoop_iterate (10 ^ (s - (if v < 0 then 1 else 0)))
    d.toNat v d (le_refl _) hd hlo hhi
  have hcast : ∀ n : Nat, ((n : Int) < 10 ^ (s - (if v < 0 then 1 else 0)))
      ↔ n < 10 ^ (s - (if v < 0 then 1 else 0)) := by
    intro n
    rw [cast_lt_pow, lt_pow_iff_decLen]
  unfold DYNAMIC.ctor
  simp only [hs0, hd0, if_false, hS, hp]
  refine ⟨k, by omega, ?_, h3, fun j hj hc => ?_⟩
  · rcases h4 with h4 | h4
    · exact Or.inl h4
    · exact Or.inr ((hcast _).mp h4)
  · obtain ⟨h6, h7⟩ := h5 j hj
    rcases hc with hc | hc
    · omega
    · have := (hcast _).mpr hc
      omega

/-- The reduction at `_DYNAMIC(12345, 2, 4)`: one step, `(1235, 1)`. -/
theorem DYNAMIC_reduction_witness :
    ∃ k : Nat, (k : Int) = 2 - (DYNAMIC.ctor 12345 2 4).digits
      ∧ ((DYNAMIC.ctor 12345 2 4).digits = 0
          ∨ (DYNAMIC.ctor 12345 2 4).val.natAbs < 10 ^ (4 - (if (12345 : Int) < 0 then 1 else 0)))
      ∧ (DYNAMIC.ctor 12345 2 4).val = roundStep^[k] 12345
      ∧ ∀ j : Nat, j < k →
          ¬ ((2 : Int) - j = 0
            ∨ (roundStep^[j] 12345).natAbs < 10 ^ (4 - (if (12345 : Int) < 0 then 1 else 0))) :=
  DYNAMIC_reduction 12345 2 4 (by decide) (by decide) (by decide) (by decide) (by decide)

/-! ## The length budget of `_DYNAMIC` -/

theorem roundHalfUp_eq_floor (x : Int) (k : Nat) :
    roundHalfUp x k = ⌊(x : ℚ) / 10 ^ k + 1 / 2⌋ := by
  unfold roundHalfUp
  have h : (x : ℚ) / 10 ^ k + 1 / 2 = ((2 * x + 10 ^ k : Int) : ℚ) / ((2 * 10 ^ k : Nat) : ℚ) := by
    push_cast
    field_simp
    ring
  rw [h, Rat.floor_intCast_div_natCast]
  push_cast
  rfl

/-- C16: on a negative value the step `val = (val+5)/10` is not round-half-up:
`-20` is replaced by `-1` while `floor(-20/10 + 1/2) = -2`, and the multiple of
ten `-10` is replaced by `0`, not by `-10/10 = -1`; `_DYNAMIC(-20, 1, 2)` is
rendered `-1`. -/
theorem DYNAMIC_step_negative_misrounds :
    DYNAMIC.step (-20) = -1 ∧ roundHalfUp (-20) 1 = -2
      ∧ DYNAMIC.step (-10) = 0 ∧ (-10 : Int) / 10 = -1
      ∧ DYNAMIC.ctor (-20) 1 2 = ⟨-1, 0⟩
      ∧ DYNAMIC.operatorShl (DYNAMIC.ctor (-20) 1 2) = some "-1".toList := by
  decide

/-- C17: the step `x -> (x + 5) / 10` with truncating division is not
symmetric under negation: for every integer `v >= 5` the step of `-v` is
`1 - step v`, which differs from `-(step v)`; the same holds of the 32-bit
step of the code wherever `v + 5` stays in range; for `0 <= v <= 4` both
`step (-v)` and `-(step v)` are `0`. -/
theorem roundStep_not_symmetric (v : Int) :
    (5 ≤ v →
        roundStep (-v) = 1 - roundStep v ∧ roundStep (-v) ≠ -roundStep v
          ∧ (v ≤ 2147483642 →
              DYNAMIC.step (-v) = 1 - DYNAMIC.step v ∧ DYNAMIC.step (-v) ≠ -DYNAMIC.step v))
      ∧ (0 ≤ v → v ≤ 4 →
          roundStep (-v) = 0 ∧ -roundStep v = 0
            ∧ DYNAMIC.step (-v) = 0 ∧ -DYNAMIC.step v = 0) := by
  have h1 := roundStep_eq v
  have h2 := roundStep_eq (-v)
  constructor
  · intro hv
    have ha : roundStep (-v) = 1 - roundStep v := by
      rw [h1, h2]; split <;> split <;> omega
    have hb : roundStep (-v) ≠ -roundStep v := by
      rw [ha]; omega
    refine ⟨ha, hb, fun hhi => ?_⟩
    rw [step_eq_roundStep v (by omega) hhi, step_eq_roundStep (-v) (by omega) (by omega)]
    exact ⟨ha, hb⟩
  · intro h0 h4
    rw [step_eq_roundStep v (by omega) (by omega), step_eq_roundStep (-v) (by omega) (by omega)]
    rw [h1, h2]
    refine ⟨?_, ?_, ?_, ?_⟩ <;> split <;> omega

/-- The asymmetry at `v = 7` and the agreement at `v = 3`. -/
theorem roundStep_not_symmetric_witness :
    (roundStep (-7) = 1 - roundStep 7 ∧ roundStep (-7) ≠ -roundStep 7
        ∧ DYNAMIC.step (-7) = 1 - DYNAMIC.step 7 ∧ DYNAMIC.step (-7) ≠ -DYNAMIC.step 7)
      ∧ (roundStep (-3) = 0 ∧ -roundStep 3 = 0
        ∧ DYNAMIC.step (-3) = 0 ∧ -DYNAMIC.step 3 = 0) :=
  ⟨⟨((roundStep_not_symmetric 7).1 (by decide)).1,
      ((roundStep_not_symmetric 7).1 (by decide)).2.1,
      (((roundStep_not_symmetric 7).1 (by decide)).2.2 (by decide)).1,
      (((roundStep_not_symmetric 7).1 (by decide)).2.2 (by decide)).2⟩,
    (roundStep_not_symmetric 3).2 (by decide) (by decide)⟩

/-- C18: the value kept by `_DYNAMIC` is not the one-go rounding of the
discarded digits: `_DYNAMIC(145, 2, 1)` discards two digits and keeps `2`
(`145 -> 15 -> 2`), while `floor(145/100 + 1/2) = 1`. -/
theorem DYNAMIC_double_rounding :
    DYNAMIC.ctor 145 2 1 = ⟨2, 0⟩
      ∧ roundHalfUp 145 2 = 1
      ∧ (145 + 5 * 10 ^ (2 - 1)) / 10 ^ 2 = (1 : Int)
      ∧ DYNAMIC.operatorShl (DYNAMIC.ctor 145 2 1) = some "2".toList := by
  decide

end Streaming
